import Mathlib

/-!
Shallow embedding of the arithmetization layer of `verifiableFHE`
(`src/params.rs`, `src/gadgets/add.rs`, `src/gadgets/mul.rs`).

Machine integers are modelled as `Nat` with explicit `% 2^w` wherever the
source's fixed-width arithmetic can wrap (the u32 sum in the addition trace,
the u64 products in `mod_exp`, the u128 accumulator in the multiplication
trace); a Rust operation that panics (`%` by zero in `mod_exp`) is modelled
with `Option`.  The source fixes the ring-degree bound `N` as a module
constant (`params.rs`: `N = 3500`); here the corresponding `n` is an explicit
parameter of every definition, and `N` below is the repository's value.

Field elements pushed into the trace are produced by
`F::from_canonical_u32` / `from_canonical_u64`; the trace is modelled over
`Nat` holding exactly the canonical values handed to those injections, and
the constraint evaluators are modelled over an arbitrary commutative ring
`R`, with the injections as `Nat.cast`.
-/

namespace VerifiableFHE

/-- `params.rs`: number of ciphertext polynomial coefficients. -/
def N : Nat := 3500

/-- `params.rs`: first RNS ciphertext modulus (31 bits). -/
def P1 : Nat := 1085276161

/-- `params.rs`: second RNS ciphertext modulus (31 bits). -/
def P2 : Nat := 1092616193

/-- `params.rs`: third RNS ciphertext modulus (31 bits). -/
def P3 : Nat := 1095761921

/-- `params.rs`: `P = P1 * P2 * P3`, the full ciphertext ring modulus. -/
def P : Nat := P1 * P2 * P3

/-- Row-major trace matrix (`p3_matrix::dense::RowMajorMatrix`): a flat list
of values plus the row width.  Entries are the canonical `Nat` values passed
to `F::from_canonical_u32` by the trace builders. -/
structure RowMajorMatrix where
  values : List Nat
  width : Nat
deriving DecidableEq, Repr

/-- The `while exp > 0` loop of `mod_exp` in `src/gadgets/mul.rs` (lines
58-66).  All arithmetic is on `u64`, so each product is taken `% 2^64`
before the reduction `% modulus`.  Within one iteration the `result` update
(taken when the low bit of `exp` is set) uses the incoming `base`, and the
`base` squaring uses the incoming `base`, exactly as in the source. -/
def modExpLoop (modulus base result exp : Nat) : Nat :=
  if exp = 0 then result
  else
    modExpLoop modulus (base * base % 2 ^ 64 % modulus)
      (if exp % 2 = 1 then base * result % 2 ^ 64 % modulus else result)
      (exp / 2)
termination_by exp
decreasing_by
  exact Nat.div_lt_self (Nat.pos_of_ne_zero (by assumption)) (by decide)

/-- `mod_exp` from `src/gadgets/mul.rs` (lines 50-68).  The source first
returns `0` when `modulus == 1`; otherwise it executes `base %= modulus`,
which for `modulus == 0` is a Rust division by zero (a panic), modelled as
`none`.  Otherwise the binary-exponentiation loop runs with `result = 1`. -/
def mod_exp (base exp modulus : Nat) : Option Nat :=
  if modulus = 1 then some 0
  else if modulus = 0 then none
  else some (modExpLoop modulus (base % modulus) 1 exp)

/-- `generate_polyadd_trace` from `src/gadgets/add.rs` (lines 86-113).
Row 0 is `a ++ b ++ [modulus] ++ out` with `out[i] = (a[i] + b[i]) % modulus`,
where the sum `a[i] + b[i]` is a `u32` addition and hence wraps at `2^32`;
then 3 rows of zeros pad the table to the minimum height 4.  List indexing
`a[i]` is rendered as `List.getD i 0` (the loops only index below `n`, the
intended common length of `a` and `b`). -/
def generate_polyadd_trace (n : Nat) (a b : List Nat) (modulus : Nat) :
    RowMajorMatrix where
  values :=
    (List.range n).map (fun i => a.getD i 0)
      ++ (List.range n).map (fun i => b.getD i 0)
      ++ [modulus]
      ++ (List.range n).map (fun i => (a.getD i 0 + b.getD i 0) % 2 ^ 32 % modulus)
      ++ List.replicate (3 * (3 * n + 1)) 0
  width := 3 * n + 1

/-- The output coefficient `out[i]` computed by `generate_polymul_trace`
(`src/gadgets/mul.rs`, lines 140-166).  For `i < n` the loop sums
`a[a_idx] * b[i - a_idx] % modulus` for `a_idx` in `0..i+1`; for `i ≥ n` it
sums over `a_idx` in `i-n+1..n`.  The accumulator is `u128`, so the running
sum wraps at `2^128` (adding with wrap-around step by step equals reducing
the total sum `% 2^128`); the final `out[i] %= modulus` then
`out[i] as u32` truncation are the trailing `% modulus % 2^32`. -/
def mulOutEntry (n : Nat) (a b : List Nat) (modulus : Nat) (i : Nat) : Nat :=
  (if i < n then
      ∑ j in Finset.range (i + 1), a.getD j 0 * b.getD (i - j) 0 % modulus
    else
      ∑ j in Finset.Ico (i - n + 1) n, a.getD j 0 * b.getD (i - j) 0 % modulus)
    % 2 ^ 128 % modulus % 2 ^ 32

/-- `generate_polymul_trace` from `src/gadgets/mul.rs` (lines 125-211).
Row 0 is `a ++ b ++ out` with `out` the length `2n-1` convolution of
`mulOutEntry`; then 3 rows of zeros pad the table to height 4. -/
def generate_polymul_trace (n : Nat) (a b : List Nat) (modulus : Nat) :
    RowMajorMatrix where
  values :=
    (List.range n).map (fun i => a.getD i 0)
      ++ (List.range n).map (fun i => b.getD i 0)
      ++ (List.range (2 * n - 1)).map (mulOutEntry n a b modulus)
      ++ List.replicate (3 * (4 * n - 1)) 0
  width := 4 * n - 1

/-- `PolyAddAir::width` (`src/gadgets/add.rs` line 36), with the module
constant `N` made an explicit argument. -/
def PolyAddAir.width (n : Nat) : Nat := 3 * n + 1

/-- `PolyMulAir::width` (`src/gadgets/mul.rs` line 46), with the module
constant `N` made an explicit argument. -/
def PolyMulAir.width (n : Nat) : Nat := 4 * n - 1

/-- `PolyAddAir::eval` (`src/gadgets/add.rs` lines 42-82): the full list of
constraints it registers, as (lhs, rhs) pairs of `assert_eq` over the ring
`R`.  All of them are `when_first_row` boundary constraints evaluated on
row 0 (`row : Nat → R`): for each `i < n` it binds `row[i]` to `a[i]` and
`row[i+n]` to `b[i]` (interleaved, as in the source loop), then binds
`row[2n]` to `modulus`.  The CRT reduction sketched in the source comment
block is not wired in: nothing else is asserted. -/
def PolyAddAir.evalConstraints (R : Type) [CommRing R] (n : Nat)
    (a b : List Nat) (modulus : Nat) (row : Nat → R) : List (R × R) :=
  (List.range n).flatMap
      (fun i => [(row i, (a.getD i 0 : R)), (row (i + n), (b.getD i 0 : R))])
    ++ [(row (2 * n), (modulus : R))]

/-- `PolyMulAir::eval` (`src/gadgets/mul.rs` lines 78-81): the
`when_first_row` boundary constraints binding `row[i]` to `a[i]` and
`row[i+n]` to `b[i]` for `i < n`, interleaved as in the source loop. -/
def PolyMulAir.evalBoundaryConstraints (R : Type) [CommRing R] (n : Nat)
    (a b : List Nat) (row : Nat → R) : List (R × R) :=
  (List.range n).flatMap
    (fun i => [(row i, (a.getD i 0 : R)), (row (i + n), (b.getD i 0 : R))])

/-- The value of `a_eval[i]` after the loop of `PolyMulAir::eval`
(`src/gadgets/mul.rs` lines 93-102).  `a_eval[i]` is pushed as
`AB::Expr::zero()`; the body executes
`let _ = a_eval[i].clone().add(row[j].mul(power));`, i.e. it builds the sum
of a clone with `row[j] * power` and binds it to `_`, never writing it back,
so the accumulator is left unchanged at each step.  The fold below keeps the
let-bound sum (with `power = from_canonical_u64(mod_exp(i, j, modulus))`)
and discards it exactly as the source does. -/
def PolyMulAir.aEvalEntry (R : Type) [CommRing R] (n : Nat) (modulus : Nat)
    (row : Nat → R) (i : Nat) : R :=
  (List.range n).foldl
    (fun acc j =>
      let power : R := ((mod_exp i j modulus).getD 0 : R)
      let _ := acc + row j * power
      acc)
    0

/-- The value of `b_eval[i]` after the loop of `PolyMulAir::eval`
(`src/gadgets/mul.rs` lines 93-102): same discarded-sum shape as
`aEvalEntry`, reading `row[j + n]`. -/
def PolyMulAir.bEvalEntry (R : Type) [CommRing R] (n : Nat) (modulus : Nat)
    (row : Nat → R) (i : Nat) : R :=
  (List.range n).foldl
    (fun acc j =>
      let power : R := ((mod_exp i j modulus).getD 0 : R)
      let _ := acc + row (j + n) * power
      acc)
    0

/-- The value of `out_eval[i]` after the loop of `PolyMulAir::eval`
(`src/gadgets/mul.rs` lines 105-112): same discarded-sum shape, reading
`row[j + 2n]` for `j < 2n - 1`. -/
def PolyMulAir.outEvalEntry (R : Type) [CommRing R] (n : Nat) (modulus : Nat)
    (row : Nat → R) (i : Nat) : R :=
  (List.range (2 * n - 1)).foldl
    (fun acc j =>
      let power : R := ((mod_exp i j modulus).getD 0 : R)
      let _ := acc + row (j + 2 * n) * power
      acc)
    0

/-- `PolyMulAir::eval` (`src/gadgets/mul.rs` lines 117-119): the product
constraints `assert_eq(a_eval[i] * b_eval[i], out_eval[i])` for
`i < 2n - 1`, registered for every row (no `when_first_row` filter). -/
def PolyMulAir.evalProductConstraints (R : Type) [CommRing R] (n : Nat)
    (modulus : Nat) (row : Nat → R) : List (R × R) :=
  (List.range (2 * n - 1)).map
    (fun i =>
      (PolyMulAir.aEvalEntry R n modulus row i *
          PolyMulAir.bEvalEntry R n modulus row i,
        PolyMulAir.outEvalEntry R n modulus row i))

/-- Scalar point evaluation `Σ_{j < k} c[j] * x^j` of a coefficient list,
as used by the specification's `A(x)`, `B(x)`, `Out(x)`. -/
def polyEvalAt (c : List Nat) (k : Nat) (x : Nat) : Nat :=
  ∑ j in Finset.range k, c.getD j 0 * x ^ j

/-- Concrete row-0 assignment for the `PolyMulAir` instance with `n = 1`,
`a = [3]`, `b = [4]`, `modulus = 7`: the bound input columns carry 3 and 4,
but the out column (index 2) carries 999 instead of `3 * 4 % 7 = 5`. -/
def rowWrongOut : Nat → ℤ := fun i => if i = 0 then 3 else if i = 1 then 4 else 999

/-- Concrete row-0 assignment for `n = 1` used to compare two rows that
agree on the `a` and `b` columns (indices `< 2`). -/
def rowOutA : Nat → ℤ := fun i => (i : ℤ)

/-- Same as `rowOutA` on the `a` and `b` columns but with a different value
in the out column (index 2). -/
def rowOutB : Nat → ℤ := fun i => if i = 2 then 42 else (i : ℤ)

/-- Concrete row-0 assignment for the `PolyAddAir` instance with `n = 1`,
`a = [5]`, `b = [6]`, `modulus = 7`: bound columns match the instance, the
out column (index 3) carries the arbitrary value 999. -/
def rowAddJunk : Nat → ℤ := fun i =>
  if i = 0 then 5 else if i = 1 then 6 else if i = 2 then 7 else 999

section Helpers

/-- A left fold whose step function returns the accumulator unchanged is the
identity on the initial value. -/
theorem foldl_keep {α β : Type} (l : List α) (x : β) :
    l.foldl (fun acc _ => acc) x = x := by
  induction l generalizing x with
  | nil => rfl
  | cons y ys ih => simp [ih x]

/-- Reading a list of zeros (at any index, in range or not) gives zero. -/
theorem getD_zero_list (l : List Nat) (h : ∀ x ∈ l, x = 0) (k : Nat) :
    l.getD k 0 = 0 := by
  rcases Nat.lt_or_ge k l.length with hk | hk
  · rw [List.getD_eq_getElem l 0 hk]
    exact h _ (l.getElem_mem hk)
  · exact List.getD_eq_default l 0 hk

/-- Reading `(List.range l.length).map (fun i => l.getD i d)` recovers `l`. -/
theorem rangeMap_getD {α : Type} (l : List α) (d : α) :
    (List.range l.length).map (fun i => l.getD i d) = l := by
  apply List.ext_getElem
  · simp
  · intro i h1 h2
    simp only [List.getElem_map, List.getElem_range]
    exact List.getD_eq_getElem l d h2

/-- `a_eval[i]` is left at zero by `PolyMulAir::eval`: the sums built in its
inner loop are discarded. -/
theorem aEvalEntry_eq_zero (R : Type) [CommRing R] (n modulus : Nat)
    (row : Nat → R) (i : Nat) : PolyMulAir.aEvalEntry R n modulus row i = 0 :=
  foldl_keep (List.range n) (0 : R)

/-- `b_eval[i]` is left at zero by `PolyMulAir::eval`. -/
theorem bEvalEntry_eq_zero (R : Type) [CommRing R] (n modulus : Nat)
    (row : Nat → R) (i : Nat) : PolyMulAir.bEvalEntry R n modulus row i = 0 :=
  foldl_keep (List.range n) (0 : R)

/-- `out_eval[i]` is left at zero by `PolyMulAir::eval`. -/
theorem outEvalEntry_eq_zero (R : Type) [CommRing R] (n modulus : Nat)
    (row : Nat → R) (i : Nat) :
    PolyMulAir.outEvalEntry R n modulus row i = 0 :=
  foldl_keep (List.range (2 * n - 1)) (0 : R)

/-- Every product constraint registered by `PolyMulAir::eval` is the pair
`(0 * 0, 0)`, regardless of the row assignment. -/
theorem productConstraints_eq_replicate (R : Type) [CommRing R]
    (n modulus : Nat) (row : Nat → R) :
    PolyMulAir.evalProductConstraints R n modulus row =
      List.replicate (2 * n - 1) ((0 : R), (0 : R)) := by
  unfold PolyMulAir.evalProductConstraints
  have h : ∀ i ∈ List.range (2 * n - 1),
      (PolyMulAir.aEvalEntry R n modulus row i *
          PolyMulAir.bEvalEntry R n modulus row i,
        PolyMulAir.outEvalEntry R n modulus row i) = ((0 : R), (0 : R)) := by
    intro i _
    rw [aEvalEntry_eq_zero, bEvalEntry_eq_zero, outEvalEntry_eq_zero, mul_zero]
  rw [List.map_congr_left h]
  simp [List.map_const']

/-- Two flat maps over the same list agree when the functions agree on its
elements. -/
theorem flatMap_congr_mem {α β : Type} (l : List α) (f g : α → List β)
    (h : ∀ x ∈ l, f x = g x) : l.flatMap f = l.flatMap g := by
  induction l with
  | nil => rfl
  | cons x xs ih =>
    simp only [List.flatMap_cons, h x (by simp)]
    rw [ih (fun y hy => h y (by simp [hy]))]

end Helpers

/-- C7: for all `n ≥ 1`, the addition gadget's `width()` is exactly `3n+1`
and the multiplication gadget's `width()` is exactly `4n-1`, and each built
trace matrix carries that same fixed width with `4 * width` values in total
(the width is derived from `n` only, never from the runtime data size). -/
theorem gadget_widths (n : Nat) (hn : 1 ≤ n) (a b : List Nat) (m : Nat)
    (ha : a.length = n) (hb : b.length = n) :
    PolyAddAir.width n = 3 * n + 1 ∧ PolyMulAir.width n = 4 * n - 1 ∧
    (generate_polyadd_trace n a b m).width = PolyAddAir.width n ∧
    (generate_polyadd_trace n a b m).values.length = 4 * PolyAddAir.width n ∧
    (generate_polymul_trace n a b m).width = PolyMulAir.width n ∧
    (generate_polymul_trace n a b m).values.length = 4 * PolyMulAir.width n := by
  refine ⟨rfl, rfl, rfl, ?_, rfl, ?_⟩ <;>
    · simp [generate_polyadd_trace, generate_polymul_trace, PolyAddAir.width,
        PolyMulAir.width]
      omega

/-- Witness for `gadget_widths` at `n = 2`, `a = [1, 2]`, `b = [3, 4]`,
`modulus = 5`. -/
theorem gadget_widths_witness :
    (1 : Nat) ≤ 2 ∧
      (generate_polyadd_trace 2 [1, 2] [3, 4] 5).values.length =
        4 * PolyAddAir.width 2 ∧
      (generate_polymul_trace 2 [1, 2] [3, 4] 5).values.length =
        4 * PolyMulAir.width 2 :=
  ⟨by decide,
    (gadget_widths 2 (by decide) [1, 2] [3, 4] 5 (by decide) (by decide)).2.2.2.1,
    (gadget_widths 2 (by decide) [1, 2] [3, 4] 5 (by decide) (by decide)).2.2.2.2.2⟩

/-- C8: every table built by `generate_polyadd_trace` or
`generate_polymul_trace` has exactly 4 rows (`4 * width` values at the fixed
width), and every entry of rows 1 through 3 (positions at or beyond the row
width) is zero. -/
theorem trace_padding (n : Nat) (hn : 1 ≤ n) (a b : List Nat) (m : Nat)
    (ha : a.length = n) (hb : b.length = n) :
    ((generate_polyadd_trace n a b m).values.length = 4 * (3 * n + 1) ∧
      ∀ k, 3 * n + 1 ≤ k →
        (generate_polyadd_trace n a b m).values.getD k 0 = 0) ∧
    ((generate_polymul_trace n a b m).values.length = 4 * (4 * n - 1) ∧
      ∀ k, 4 * n - 1 ≤ k →
        (generate_polymul_trace n a b m).values.getD k 0 = 0) := by
  refine ⟨⟨?_, ?_⟩, ⟨?_, ?_⟩⟩
  · simp [generate_polyadd_trace]
    omega
  · intro k hk
    unfold generate_polyadd_trace
    rw [List.getD_append_right]
    · exact getD_zero_list _ (fun x hx => (List.eq_of_mem_replicate hx)) _
    · simp
      omega
  · simp [generate_polymul_trace]
    omega
  · intro k hk
    unfold generate_polymul_trace
    rw [List.getD_append_right]
    · exact getD_zero_list _ (fun x hx => (List.eq_of_mem_replicate hx)) _
    · simp
      omega

/-- Witness for `trace_padding` at `n = 1`, `a = [2]`, `b = [3]`,
`modulus = 5`, reading a padding position of each table. -/
theorem trace_padding_witness :
    (generate_polyadd_trace 1 [2] [3] 5).values.getD 5 0 = 0 ∧
    (generate_polymul_trace 1 [2] [3] 5).values.getD 4 0 = 0 :=
  ⟨(trace_padding 1 (by decide) [2] [3] 5 rfl rfl).1.2 5 (by decide),
    (trace_padding 1 (by decide) [2] [3] 5 rfl rfl).2.2 4 (by decide)⟩

/-- C2: two row-0 assignments that agree on the `a` columns (indices
`0..n`) and the `b` columns (indices `n..2n`) but differ arbitrarily in the
out columns produce exactly the same constraints from `PolyMulAir::eval`:
the boundary constraint lists coincide, and the `2n-1` product assertions
compare identically-zero expressions (the results of the `.add` calls
building `a_eval`, `b_eval`, `out_eval` are discarded), so the outcome does
not depend on the out columns and any out-column values satisfy them. -/
theorem polymul_eval_out_independent (R : Type) [CommRing R] (n : Nat)
    (a b : List Nat) (m : Nat) (row row' : Nat → R)
    (hagree : ∀ i, i < 2 * n → row i = row' i) :
    PolyMulAir.evalBoundaryConstraints R n a b row =
      PolyMulAir.evalBoundaryConstraints R n a b row' ∧
    PolyMulAir.evalProductConstraints R n m row =
      List.replicate (2 * n - 1) ((0 : R), (0 : R)) ∧
    PolyMulAir.evalProductConstraints R n m row' =
      List.replicate (2 * n - 1) ((0 : R), (0 : R)) := by
  refine ⟨?_, productConstraints_eq_replicate R n m row,
    productConstraints_eq_replicate R n m row'⟩
  unfold PolyMulAir.evalBoundaryConstraints
  apply flatMap_congr_mem
  intro i hi
  rw [List.mem_range] at hi
  rw [hagree i (by omega), hagree (i + n) (by omega)]

/-- Witness for `polymul_eval_out_independent` at `n = 1` with two rows that
agree below index 2 and differ at the out column (index 2). -/
theorem polymul_eval_out_independent_witness :
    PolyMulAir.evalBoundaryConstraints ℤ 1 [7] [9] rowOutA =
      PolyMulAir.evalBoundaryConstraints ℤ 1 [7] [9] rowOutB ∧
    rowOutA 2 ≠ rowOutB 2 :=
  ⟨(polymul_eval_out_independent ℤ 1 [7] [9] 3 rowOutA rowOutB
      (by decide)).1,
    by decide⟩

/-- C5: `PolyAddAir::eval` asserts only the first-row boundary constraints
binding row 0's `a` columns, `b` columns and modulus column to the declared
instance values; nothing constrains the out columns, so any row whose bound
columns match the instance satisfies every asserted constraint. -/
theorem polyadd_eval_boundary_only (R : Type) [CommRing R] (n : Nat)
    (a b : List Nat) (m : Nat) (row : Nat → R)
    (hA : ∀ i, i < n → row i = (a.getD i 0 : R))
    (hB : ∀ i, i < n → row (i + n) = (b.getD i 0 : R))
    (hM : row (2 * n) = (m : R)) :
    ∀ c ∈ PolyAddAir.evalConstraints R n a b m row, c.1 = c.2 := by
  intro c hc
  unfold PolyAddAir.evalConstraints at hc
  rw [List.mem_append] at hc
  rcases hc with hc | hc
  · rw [List.mem_flatMap] at hc
    obtain ⟨i, hi, hc⟩ := hc
    rw [List.mem_range] at hi
    rw [List.mem_cons, List.mem_singleton] at hc
    rcases hc with hc | hc
    · rw [hc]
      exact hA i hi
    · rw [hc]
      exact hB i hi
  · rw [List.mem_singleton] at hc
    rw [hc]
    exact hM

/-- Witness for `polyadd_eval_boundary_only` at `n = 1`, `a = [5]`,
`b = [6]`, `modulus = 7`, with an arbitrary value 999 in the out column. -/
theorem polyadd_eval_boundary_only_witness :
    (∀ c ∈ PolyAddAir.evalConstraints ℤ 1 [5] [6] 7 rowAddJunk,
      c.1 = c.2) ∧
    rowAddJunk 3 = 999 :=
  ⟨polyadd_eval_boundary_only ℤ 1 [5] [6] 7 rowAddJunk
      (by decide) (by decide) (by decide),
    by decide⟩

/-- C1 (code bug): the spec and the source's own comments (lines 36 and
114 of `src/gadgets/mul.rs`) say `eval` reconstructs `A(x)`, `B(x)`,
`Out(x)` from the committed row and asserts `A(x)*B(x) == Out(x)`; but the
`.add` results are bound to `_` and discarded, so every product assertion
compares identically-zero expressions.  Concretely, for `n = 1`, `a = [3]`,
`b = [4]`, `modulus = 7`, the row carrying 999 in the out column (instead
of `3 * 4 % 7 = 5`) satisfies every constraint `eval` registers, and the
product constraint list is the single identically-zero pair. -/
theorem polymul_eval_accepts_wrong_out :
    (∀ c ∈ PolyMulAir.evalBoundaryConstraints ℤ 1 [3] [4] rowWrongOut,
      c.1 = c.2) ∧
    (∀ c ∈ PolyMulAir.evalProductConstraints ℤ 1 7 rowWrongOut,
      c.1 = c.2) ∧
    rowWrongOut 2 ≠ ((3 * 4 % 7 : Nat) : ℤ) := by
  refine ⟨by decide, ?_, by decide⟩
  rw [productConstraints_eq_replicate]
  intro c hc
  rw [List.eq_of_mem_replicate hc]

section ModExp

/-- The loop of `mod_exp` keeps its accumulator below the modulus: the
accumulator starts below `m` and every update reduces `% m`. -/
theorem modExpLoop_lt (m : Nat) (hm : 1 ≤ m) :
    ∀ e base result, result < m → modExpLoop m base result e < m := by
  intro e
  induction e using Nat.strong_induction_on with
  | _ e ih =>
    intro base result hr
    rw [modExpLoop]
    by_cases h0 : e = 0
    · rw [if_pos h0]
      exact hr
    · rw [if_neg h0]
      apply ih (e / 2) (Nat.div_lt_self (Nat.pos_of_ne_zero h0) (by decide))
      by_cases hp : e % 2 = 1
      · rw [if_pos hp]
        exact Nat.mod_lt _ hm
      · rw [if_neg hp]
        exact hr

/-- Square-and-multiply invariant of the `mod_exp` loop: when the modulus is
at most `2^32` and both running values are already reduced, no `u64`
product wraps, and the loop computes `base ^ exp * result % m`. -/
theorem modExpLoop_eq (m : Nat) (hm : 2 ≤ m) (hW : m ≤ 2 ^ 32) :
    ∀ e base result, base < m → result < m →
      modExpLoop m base result e = base ^ e * result % m := by
  intro e
  induction e using Nat.strong_induction_on with
  | _ e ih =>
    intro base result hb hr
    rw [modExpLoop]
    by_cases h0 : e = 0
    · simp [h0, Nat.mod_eq_of_lt hr]
    · rw [if_neg h0]
      have hmm : m * m ≤ 2 ^ 64 := by
        calc m * m ≤ 2 ^ 32 * 2 ^ 32 := Nat.mul_le_mul hW hW
          _ = 2 ^ 64 := by norm_num
      have hbb : base * base < 2 ^ 64 :=
        lt_of_lt_of_le (Nat.mul_lt_mul_of_lt_of_lt hb hb) hmm
      have hbr : base * result < 2 ^ 64 :=
        lt_of_lt_of_le (Nat.mul_lt_mul_of_lt_of_lt hb hr) hmm
      rw [Nat.mod_eq_of_lt hbb]
      have hb' : base * base % m < m := Nat.mod_lt _ (by omega)
      have e2 : e / 2 < e := Nat.div_lt_self (Nat.pos_of_ne_zero h0) (by decide)
      obtain ⟨k, hk⟩ : ∃ k, e / 2 = k := ⟨_, rfl⟩
      rcases Nat.mod_two_eq_zero_or_one e with hpar | hpar
      · rw [if_neg (by omega)]
        rw [ih (e / 2) e2 (base * base % m) result hb' hr]
        have key : (base * base % m) ^ (e / 2) * result % m
            = (base * base) ^ (e / 2) * result % m := by
          conv_lhs => rw [Nat.mul_mod, ← Nat.pow_mod, ← Nat.mul_mod]
        rw [key, hk]
        have he : e = 2 * k := by omega
        rw [he]
        congr 1
        ring
      · rw [if_pos hpar]
        rw [Nat.mod_eq_of_lt hbr]
        rw [ih (e / 2) e2 (base * base % m) (base * result % m) hb'
          (Nat.mod_lt _ (by omega))]
        have key : (base * base % m) ^ (e / 2) * (base * result % m) % m
            = (base * base) ^ (e / 2) * (base * result) % m := by
          conv_lhs =>
            rw [Nat.mul_mod, ← Nat.pow_mod,
              Nat.mod_mod_of_dvd _ (dvd_refl m), ← Nat.mul_mod]
        rw [key, hk]
        have he : e = 2 * k + 1 := by omega
        rw [he]
        congr 1
        ring

/-- `mod_exp` computes true modular exponentiation whenever
`2 ≤ modulus ≤ 2^32`. -/
theorem mod_exp_pow (b e m : Nat) (h2 : 2 ≤ m) (hW : m ≤ 2 ^ 32) :
    mod_exp b e m = some (b ^ e % m) := by
  unfold mod_exp
  rw [if_neg (by omega), if_neg (by omega)]
  congr 1
  rw [modExpLoop_eq m h2 hW e (b % m) 1 (Nat.mod_lt _ (by omega)) (by omega)]
  rw [mul_one, ← Nat.pow_mod]

end ModExp

/-- C10: for `2 ≤ modulus ≤ 2^32` the `u64` products in `mod_exp` never
wrap (base is reduced below the modulus before the loop and each update is
re-reduced), so `mod_exp` equals mathematical `base ^ exp mod modulus`; for
a modulus above `2^32` this fails at a concrete input (the squaring wraps),
and at modulus `0` the initial `base %= modulus` divides by zero (`none`). -/
theorem mod_exp_u64_semantics :
    (∀ b e m, 2 ≤ m → m ≤ 2 ^ 32 → mod_exp b e m = some (b ^ e % m)) ∧
    mod_exp (2 ^ 64 - 2) 2 (2 ^ 64 - 1) ≠
      some ((2 ^ 64 - 2) ^ 2 % (2 ^ 64 - 1)) ∧
    mod_exp 2 3 0 = none := by
  refine ⟨fun b e m h2 hW => mod_exp_pow b e m h2 hW, ?_, by simp [mod_exp]⟩
  have hv : mod_exp (2 ^ 64 - 2) 2 (2 ^ 64 - 1) = some 4 := by
    unfold mod_exp
    rw [if_neg (by norm_num), if_neg (by norm_num)]
    rw [modExpLoop, if_neg (by norm_num)]
    rw [modExpLoop, if_neg (by norm_num)]
    rw [modExpLoop, if_pos (by norm_num)]
    norm_num
  rw [hv]
  norm_num

/-- Witness for `mod_exp_u64_semantics` at `(3, 5, 7)`. -/
theorem mod_exp_u64_semantics_witness : mod_exp 3 5 7 = some (3 ^ 5 % 7) :=
  mod_exp_u64_semantics.1 3 5 7 (by decide) (by decide)

/-- C6 counterexample: `mod_exp` is not total with a value in
`[0, modulus)` for every input; at `(2, 3, 0)` the source's `base %= 0`
divides by zero (modelled `none`), and `[0, 0)` is empty. -/
theorem mod_exp_not_total_at_zero_modulus :
    ¬ ∃ r, mod_exp 2 3 0 = some r ∧ r < 0 := by
  simp [mod_exp]

/-- C6 (amended): for every modulus ≥ 1, `mod_exp` returns a value in
`[0, modulus)`; `mod_exp(base, e, 1) = 0` for all `base, e`; and
`mod_exp(base, 0, m) = 1 mod m` for all `m ≥ 2`.  (At modulus 0 the source
divides by zero, so totality holds only for positive moduli.) -/
theorem mod_exp_range (b e m : Nat) (hm : 1 ≤ m) :
    ∃ r, mod_exp b e m = some r ∧ r < m ∧ (m = 1 → r = 0) ∧
      (e = 0 → 2 ≤ m → r = 1 % m) := by
  by_cases h1 : m = 1
  · refine ⟨0, by simp [mod_exp, h1], by omega, fun _ => rfl, fun _ h => by omega⟩
  · refine ⟨modExpLoop m (b % m) 1 e, ?_,
      modExpLoop_lt m hm e (b % m) 1 (by omega), fun hm1 => absurd hm1 h1, ?_⟩
    · unfold mod_exp
      rw [if_neg h1, if_neg (by omega)]
    · intro he _
      rw [he, modExpLoop, if_pos rfl]
      exact (Nat.mod_eq_of_lt (by omega)).symm

/-- Witness for `mod_exp_range` at `(5, 0, 7)`. -/
theorem mod_exp_range_witness :
    (1 : Nat) ≤ 7 ∧
      ∃ r, mod_exp 5 0 7 = some r ∧ r < 7 ∧ ((7 : Nat) = 1 → r = 0) ∧
        ((0 : Nat) = 0 → 2 ≤ 7 → r = 1 % 7) :=
  ⟨by decide, mod_exp_range 5 0 7 (by decide)⟩

/-- `rangeMap_getD` restated against an abstract length. -/
theorem rangeMap_getD' {α : Type} (l : List α) (d : α) (n : Nat)
    (h : l.length = n) :
    (List.range n).map (fun i => l.getD i d) = l := by
  subst h
  exact rangeMap_getD l d

/-- C3 counterexample: with `modulus = 2^32 - 1` and
`a = b = [4294967294]` (entries `< modulus`), the `u32` sum `a[0] + b[0]`
wraps at `2^32`: the built out entry is `4294967292`, while
`(a[0] + b[0]) mod modulus = 4294967293`. -/
theorem polyadd_trace_u32_wrap :
    (generate_polyadd_trace 1 [4294967294] [4294967294]
        4294967295).values.getD 3 0 = 4294967292 ∧
    (4294967294 + 4294967294) % 4294967295 = 4294967293 := by
  decide

/-- C3 (amended): for all `a`, `b` of length `n` with entries `< modulus`
and `modulus ≤ 2^31` — so that the `u32` sum `a[i] + b[i]` cannot wrap —
`generate_polyadd_trace` produces row 0 equal to
`a ++ b ++ [modulus] ++ out` with `out[i] = (a[i] + b[i]) mod modulus`. -/
theorem polyadd_trace_row0 (n : Nat) (a b : List Nat) (m : Nat)
    (ha : a.length = n) (hb : b.length = n)
    (hae : ∀ v ∈ a, v < m) (hbe : ∀ v ∈ b, v < m) (hm : m ≤ 2 ^ 31) :
    ∃ out : List Nat,
      (generate_polyadd_trace n a b m).values =
        a ++ b ++ [m] ++ out ++ List.replicate (3 * (3 * n + 1)) 0 ∧
      out.length = n ∧
      ∀ i, i < n → out.getD i 0 = (a.getD i 0 + b.getD i 0) % m := by
  refine ⟨(List.range n).map
      (fun i => (a.getD i 0 + b.getD i 0) % 2 ^ 32 % m), ?_, by simp, ?_⟩
  · unfold generate_polyadd_trace
    rw [rangeMap_getD' a 0 n ha, rangeMap_getD' b 0 n hb]
  · intro i hi
    have hai : a.getD i 0 < m := by
      rw [List.getD_eq_getElem a 0 (by omega)]
      exact hae _ (a.getElem_mem _)
    have hbi : b.getD i 0 < m := by
      rw [List.getD_eq_getElem b 0 (by omega)]
      exact hbe _ (b.getElem_mem _)
    rw [List.getD_eq_getElem _ 0 (by simp [hi])]
    simp only [List.getElem_map, List.getElem_range]
    rw [Nat.mod_eq_of_lt (show a.getD i 0 + b.getD i 0 < 2 ^ 32 by omega)]

/-- Witness for `polyadd_trace_row0` at `n = 1`, `a = [1]`, `b = [2]`,
`modulus = 5`. -/
theorem polyadd_trace_row0_witness :
    ∃ out : List Nat,
      (generate_polyadd_trace 1 [1] [2] 5).values =
        [1] ++ [2] ++ [5] ++ out ++ List.replicate (3 * (3 * 1 + 1)) 0 ∧
      out.length = 1 ∧
      ∀ i, i < 1 → out.getD i 0 = ([1].getD i 0 + [2].getD i 0) % 5 :=
  polyadd_trace_row0 1 [1] [2] 5 rfl rfl (by decide) (by decide) (by norm_num)

/-- The convolution entry computed by `generate_polymul_trace` equals the
full antidiagonal convolution reduced `mod modulus`, provided the
fixed-width types cannot wrap: the modulus fits `u32` (`m < 2^32`) and the
`u128` accumulator cannot overflow (`n ≤ 2^96`; in the repository `n` is
the constant 3500). -/
theorem mulOutEntry_eq (n : Nat) (a b : List Nat) (m : Nat)
    (ha : a.length = n) (hb : b.length = n)
    (hm : 1 ≤ m) (hm32 : m < 2 ^ 32) (hsz : n ≤ 2 ^ 96) (i : Nat) :
    mulOutEntry n a b m i =
      (∑ ij in Finset.antidiagonal i,
        a.getD ij.1 0 * b.getD ij.2 0) % m := by
  have hterm : ∀ j, a.getD j 0 * b.getD (i - j) 0 % m ≤ m - 1 := by
    intro j
    have := Nat.mod_lt (a.getD j 0 * b.getD (i - j) 0) (show 0 < m by omega)
    omega
  have hbranch :
      (if i < n then
          ∑ j in Finset.range (i + 1), a.getD j 0 * b.getD (i - j) 0 % m
        else
          ∑ j in Finset.Ico (i - n + 1) n, a.getD j 0 * b.getD (i - j) 0 % m)
        = ∑ j in Finset.range (i + 1), a.getD j 0 * b.getD (i - j) 0 % m := by
    by_cases hin : i < n
    · rw [if_pos hin]
    · rw [if_neg hin]
      apply Finset.sum_subset
      · intro j hj
        rw [Finset.mem_Ico] at hj
        rw [Finset.mem_range]
        omega
      · intro j hj hnj
        rw [Finset.mem_range] at hj
        rw [Finset.mem_Ico, not_and_or, not_le, not_lt] at hnj
        rcases hnj with hj2 | hjn
        · have hz : b.getD (i - j) 0 = 0 :=
            List.getD_eq_default _ _ (by omega)
          rw [hz, Nat.mul_zero, Nat.zero_mod]
        · have hz : a.getD j 0 = 0 :=
            List.getD_eq_default _ _ (by omega)
          rw [hz, Nat.zero_mul, Nat.zero_mod]
  have hS :
      (if i < n then
          ∑ j in Finset.range (i + 1), a.getD j 0 * b.getD (i - j) 0 % m
        else
          ∑ j in Finset.Ico (i - n + 1) n, a.getD j 0 * b.getD (i - j) 0 % m)
        < 2 ^ 128 := by
    by_cases hin : i < n
    · rw [if_pos hin]
      calc ∑ j in Finset.range (i + 1), a.getD j 0 * b.getD (i - j) 0 % m
          ≤ (Finset.range (i + 1)).card • (m - 1) :=
            Finset.sum_le_card_nsmul _ _ _ (fun j _ => hterm j)
        _ = (i + 1) * (m - 1) := by rw [Finset.card_range, smul_eq_mul]
        _ ≤ 2 ^ 96 * (2 ^ 32 - 1) := Nat.mul_le_mul (by omega) (by omega)
        _ < 2 ^ 128 := by norm_num
    · rw [if_neg hin]
      calc ∑ j in Finset.Ico (i - n + 1) n, a.getD j 0 * b.getD (i - j) 0 % m
          ≤ (Finset.Ico (i - n + 1) n).card • (m - 1) :=
            Finset.sum_le_card_nsmul _ _ _ (fun j _ => hterm j)
        _ = (n - (i - n + 1)) * (m - 1) := by rw [Nat.card_Ico, smul_eq_mul]
        _ ≤ 2 ^ 96 * (2 ^ 32 - 1) := Nat.mul_le_mul (by omega) (by omega)
        _ < 2 ^ 128 := by norm_num
  unfold mulOutEntry
  rw [Nat.mod_eq_of_lt hS, hbranch, ← Finset.sum_nat_mod,
    Finset.Nat.sum_antidiagonal_eq_sum_range_succ_mk]
  exact Nat.mod_eq_of_lt (lt_trans (Nat.mod_lt _ (by omega)) hm32)

/-- C4: for all `a`, `b` of length `n` with entries `< modulus` (a `u32`
modulus, `m < 2^32`; `n ≤ 2^96` so the `u128` accumulator cannot overflow —
every realizable length, in particular the repository's `N = 3500`,
satisfies this), `generate_polymul_trace` produces row 0 equal to
`a ++ b ++ out` where `out[k] = (Σ_{i+j=k} a[i]*b[j]) mod modulus` for
every `k < 2n-1`: no intermediate value wraps before the final reduction. -/
theorem polymul_trace_row0 (n : Nat) (a b : List Nat) (m : Nat)
    (hn : 1 ≤ n) (ha : a.length = n) (hb : b.length = n)
    (hae : ∀ v ∈ a, v < m) (hbe : ∀ v ∈ b, v < m)
    (hm32 : m < 2 ^ 32) (hsz : n ≤ 2 ^ 96) :
    ∃ out : List Nat,
      (generate_polymul_trace n a b m).values =
        a ++ b ++ out ++ List.replicate (3 * (4 * n - 1)) 0 ∧
      out.length = 2 * n - 1 ∧
      ∀ k, k < 2 * n - 1 → out.getD k 0 =
        (∑ ij in Finset.antidiagonal k,
          a.getD ij.1 0 * b.getD ij.2 0) % m := by
  have hm : 1 ≤ m := by
    have hne : a ≠ [] := by
      intro h
      rw [h] at ha
      simp at ha
      omega
    obtain ⟨v, hv⟩ := List.exists_mem_of_ne_nil a hne
    have := hae v hv
    omega
  refine ⟨(List.range (2 * n - 1)).map (mulOutEntry n a b m), ?_, by simp, ?_⟩
  · unfold generate_polymul_trace
    rw [rangeMap_getD' a 0 n ha, rangeMap_getD' b 0 n hb]
  · intro k hk
    rw [List.getD_eq_getElem _ 0 (by simp [hk])]
    simp only [List.getElem_map, List.getElem_range]
    exact mulOutEntry_eq n a b m ha hb hm hm32 hsz k

/-- Witness for `polymul_trace_row0` at `n = 1`, `a = [2]`, `b = [3]`,
`modulus = 5`. -/
theorem polymul_trace_row0_witness :
    ∃ out : List Nat,
      (generate_polymul_trace 1 [2] [3] 5).values =
        [2] ++ [3] ++ out ++ List.replicate (3 * (4 * 1 - 1)) 0 ∧
      out.length = 2 * 1 - 1 ∧
      ∀ k, k < 2 * 1 - 1 → out.getD k 0 =
        (∑ ij in Finset.antidiagonal k,
          [2].getD ij.1 0 * [3].getD ij.2 0) % 5 :=
  polymul_trace_row0 1 [2] [3] 5 (by decide) rfl rfl (by decide) (by decide)
    (by norm_num) (by norm_num)

section PointEvaluation

/-- Coefficients of the polynomial `Σ_{i<n} C (c i) * X^i` over `ℕ`. -/
theorem coeff_range_sum (c : Nat → Nat) (n k : Nat) :
    (∑ i in Finset.range n,
        Polynomial.C (c i) * Polynomial.X ^ i : Polynomial ℕ).coeff k =
      if k < n then c k else 0 := by
  rw [Polynomial.finset_sum_coeff]
  have h : ∀ i ∈ Finset.range n,
      (Polynomial.C (c i) * Polynomial.X ^ i : Polynomial ℕ).coeff k =
        if k = i then c i else 0 := by
    intro i _
    rw [Polynomial.coeff_C_mul, Polynomial.coeff_X_pow]
    by_cases hik : k = i
    · rw [if_pos hik, if_pos hik, Nat.mul_one]
    · rw [if_neg hik, if_neg hik, Nat.mul_zero]
  rw [Finset.sum_congr rfl h, Finset.sum_ite_eq]
  simp [Finset.mem_range]

/-- The polynomial built from a length-`n` coefficient list has coefficient
`l.getD k 0` everywhere (in or out of range). -/
theorem coeff_listPoly (l : List Nat) (n k : Nat) (h : l.length = n) :
    (∑ i in Finset.range n,
        Polynomial.C (l.getD i 0) * Polynomial.X ^ i : Polynomial ℕ).coeff k =
      l.getD k 0 := by
  rw [coeff_range_sum]
  by_cases hk : k < n
  · rw [if_pos hk]
  · rw [if_neg hk]
    exact (List.getD_eq_default _ _ (by omega)).symm

/-- Evaluating the polynomial built from a coefficient list is the scalar
point evaluation `polyEvalAt`. -/
theorem eval_listPoly (l : List Nat) (n x : Nat) :
    (∑ i in Finset.range n,
        Polynomial.C (l.getD i 0) * Polynomial.X ^ i : Polynomial ℕ).eval x =
      polyEvalAt l n x := by
  rw [Polynomial.eval_finset_sum]
  unfold polyEvalAt
  simp

end PointEvaluation

/-- C9 counterexample: read with plain integer equality the identity fails,
because the built `out` coefficients are reduced `mod modulus` while
`A(x) * B(x)` is not: for `n = 1`, `a = [2]`, `b = [2]`, `modulus = 3`,
`x = 0` we get `A(0) * B(0) = 4` but `Out(0) = 4 mod 3 = 1`. -/
theorem polymul_eval_identity_int_cex :
    polyEvalAt [2] 1 0 * polyEvalAt [2] 1 0 = 4 ∧
    polyEvalAt ((List.range (2 * 1 - 1)).map (mulOutEntry 1 [2] [2] 3))
      (2 * 1 - 1) 0 = 1 := by
  decide

/-- C9 (amended): for all `a`, `b` of length `n` with entries `< modulus`
(`modulus` a `u32`, `n ≤ 2^96` as in `polymul_trace_row0`), when `out` is
the convolution produced by `generate_polymul_trace`, the point-evaluation
identity `A(x) * B(x) == Out(x)` holds modulo the modulus at every `x` in
`[0, 2n-2]`, where `A(x) = Σ_j a[j]*x^j`, `B(x) = Σ_j b[j]*x^j` and
`Out(x) = Σ_j out[j]*x^j`. -/
theorem polymul_eval_identity (n : Nat) (a b : List Nat) (m : Nat)
    (hn : 1 ≤ n) (ha : a.length = n) (hb : b.length = n)
    (hae : ∀ v ∈ a, v < m) (hbe : ∀ v ∈ b, v < m)
    (hm32 : m < 2 ^ 32) (hsz : n ≤ 2 ^ 96) (x : Nat) (hx : x ≤ 2 * n - 2) :
    polyEvalAt a n x * polyEvalAt b n x % m =
      polyEvalAt ((List.range (2 * n - 1)).map (mulOutEntry n a b m))
        (2 * n - 1) x % m := by
  have hm : 1 ≤ m := by
    have hne : a ≠ [] := by
      intro h
      rw [h] at ha
      simp at ha
      omega
    obtain ⟨v, hv⟩ := List.exists_mem_of_ne_nil a hne
    have := hae v hv
    omega
  set Pa : Polynomial ℕ :=
    ∑ i in Finset.range n, Polynomial.C (a.getD i 0) * Polynomial.X ^ i
    with hPa
  set Pb : Polynomial ℕ :=
    ∑ i in Finset.range n, Polynomial.C (b.getD i 0) * Polynomial.X ^ i
    with hPb
  have hca : ∀ k, Pa.coeff k = a.getD k 0 := fun k => coeff_listPoly a n k ha
  have hcb : ∀ k, Pb.coeff k = b.getD k 0 := fun k => coeff_listPoly b n k hb
  have hdeg : (Pa * Pb).natDegree < 2 * n - 1 := by
    have hle : (Pa * Pb).natDegree ≤ 2 * n - 2 := by
      rw [Polynomial.natDegree_le_iff_coeff_eq_zero]
      intro M hM
      rw [Polynomial.coeff_mul]
      apply Finset.sum_eq_zero
      intro ij hij
      rw [Finset.mem_antidiagonal] at hij
      rcases Nat.lt_or_ge ij.1 n with h1 | h1
      · have hz : b.getD ij.2 0 = 0 := List.getD_eq_default _ _ (by omega)
        rw [hca, hcb, hz, Nat.mul_zero]
      · have hz : a.getD ij.1 0 = 0 := List.getD_eq_default _ _ (by omega)
        rw [hca, hcb, hz, Nat.zero_mul]
    omega
  have hL : polyEvalAt a n x * polyEvalAt b n x =
      ∑ k in Finset.range (2 * n - 1), (Pa * Pb).coeff k * x ^ k := by
    rw [← eval_listPoly a n x, ← eval_listPoly b n x, ← hPa, ← hPb,
      ← Polynomial.eval_mul]
    exact Polynomial.eval_eq_sum_range' hdeg x
  have hR : polyEvalAt ((List.range (2 * n - 1)).map (mulOutEntry n a b m))
      (2 * n - 1) x =
      ∑ k in Finset.range (2 * n - 1), (Pa * Pb).coeff k % m * x ^ k := by
    unfold polyEvalAt
    apply Finset.sum_congr rfl
    intro k hk
    rw [Finset.mem_range] at hk
    rw [List.getD_eq_getElem _ 0 (by simp [hk])]
    simp only [List.getElem_map, List.getElem_range]
    rw [mulOutEntry_eq n a b m ha hb hm hm32 hsz k]
    congr 2
    rw [Polynomial.coeff_mul]
    apply Finset.sum_congr rfl
    intro ij _
    rw [hca, hcb]
  rw [hL, hR]
  conv_lhs => rw [Finset.sum_nat_mod]
  conv_rhs => rw [Finset.sum_nat_mod]
  congr 1
  apply Finset.sum_congr rfl
  intro k _
  conv_lhs => rw [Nat.mul_mod]
  conv_rhs => rw [Nat.mul_mod, Nat.mod_mod_of_dvd _ (dvd_refl m)]

/-- Witness for `polymul_eval_identity` at `n = 1`, `a = [1]`, `b = [1]`,
`modulus = 2`, `x = 0`. -/
theorem polymul_eval_identity_witness :
    polyEvalAt [1] 1 0 * polyEvalAt [1] 1 0 % 2 =
      polyEvalAt ((List.range (2 * 1 - 1)).map (mulOutEntry 1 [1] [1] 2))
        (2 * 1 - 1) 0 % 2 :=
  polymul_eval_identity 1 [1] [1] 2 (by decide) rfl rfl (by decide)
    (by decide) (by norm_num) (by norm_num) 0 (by decide)

end VerifiableFHE
